import Mathlib

/-!
Verification development for the truncated hierarchical B-spline basis engine
(gsTHBSplineBasis).  The coefficient type T is embedded as the exact field ℚ;
matrices are lists of columns; per-level tensor-product bases are external
collaborators and appear as function-valued fields of the basis state.
Query points are opaque codes (ℕ): the engine never inspects coordinates, it
only forwards the point to the per-level collaborators.
-/

namespace Gismo

/-- Error taxonomy of the spec: invalid refinement requests and coverage
failures are StructuralError, precondition violations on queries (such as
asking for coefficients of a non-truncated function) are AccessError. -/
inductive GsError where
  | AccessError : GsError
  | StructuralError : GsError
deriving DecidableEq, Repr

/-- State of a truncated hierarchical B-spline basis, shallowly embedding the
members of gsTHBSplineBasis together with the collaborator capabilities it
consumes (per-level tensor basis evaluation, per-level active indices, the
hierarchical active-function query of the base class). -/
structure THBBasis where
  /-- the dimension of the parameter domain (template parameter d) -/
  d : ℕ
  /-- number of tensor B-spline functions at each level (collaborator data;
  the dimension of a sparse presentation vector at that level) -/
  levelSize : ℕ → ℕ
  /-- member m_is_truncated: -1 means not truncated, a value k > 0 means
  truncated with representation level k -/
  m_is_truncated : ℕ → ℤ
  /-- member m_presentation: map from a global function id to its sparse
  coefficient vector over presentation-level flat tensor indices -/
  m_presentation : List (ℕ × (ℕ → ℚ))
  /-- gsHTensorBasis::levelOf: native level of a global function id -/
  levelOf : ℕ → ℕ
  /-- gsHTensorBasis::flatTensorIndexOf(index, lvl) -/
  flatTensorIndexOf : ℕ → ℕ → ℕ
  /-- m_bases[lvl]->eval_into(u.col(pt)): values of the functions active at
  the point, one per row of the collaborator result -/
  tensorEval : ℕ → ℕ → List ℚ
  /-- m_bases[lvl]->deriv_into(u.col(pt)): d derivative entries per active
  function, flattened row-wise -/
  tensorDeriv : ℕ → ℕ → List ℚ
  /-- m_bases[lvl]->deriv2_into(u.col(pt)): d(d+1)/2 entries per active
  function, flattened row-wise -/
  tensorDeriv2 : ℕ → ℕ → List ℚ
  /-- m_bases[lvl]->active_into(u.col(pt)): flat tensor indices of the
  functions active at the point at that level -/
  tensorActive : ℕ → ℕ → List ℕ
  /-- gsHTensorBasis::active_into, one unpadded column per point: the global
  ids of hierarchical functions active at the point, in ascending order -/
  hierActive : ℕ → List ℕ

/-- isTruncated(i): the i-th function has a sparse presentation. -/
def THBBasis.isTruncated (B : THBBasis) (i : ℕ) : Bool :=
  B.m_is_truncated i != -1

/-- numTruncated(): the number of stored sparse presentations. -/
def THBBasis.numTruncated (B : THBBasis) : ℕ :=
  B.m_presentation.length

/-- The sparse vector stored for id i, with the unchecked map access of the
source (m_presentation.find(i)->second) modelled by a zero default. -/
def THBBasis.coefsOf (B : THBBasis) (i : ℕ) : ℕ → ℚ :=
  (B.m_presentation.lookup i).getD (fun _ => 0)

/-- getCoefs(i): raises AccessError when the function is not truncated,
otherwise returns the stored sparse representation. -/
def THBBasis.getCoefs (B : THBBasis) (i : ℕ) : Except GsError (ℕ → ℚ) :=
  if B.m_is_truncated i = -1 then
    Except.error GsError.AccessError
  else
    Except.ok (B.coefsOf i)

/-- getPresLevelOfBasisFun(index): the native level when the function is not
truncated, otherwise the stored representation level. -/
def THBBasis.getPresLevelOfBasisFun (B : THBBasis) (index : ℕ) : ℕ :=
  if B.m_is_truncated index = -1 then
    B.levelOf index
  else
    (B.m_is_truncated index).toNat

/-- Modelled from the spec: representBasis is implemented outside the header;
per the header documentation of m_is_truncated and m_presentation, the rebuild
decides for every global id either Native (flag -1, no map entry) or
Truncated(presentation level k > 0, sparse coefficients; flag k plus one map
entry).  The decision for each of the numFuncs ids is the input. -/
def representBasis (B0 : THBBasis) (numFuncs : ℕ)
    (decision : ℕ → Option (ℕ × (ℕ → ℚ))) : THBBasis :=
  { B0 with
    m_is_truncated := fun j =>
      match decision j with
      | none => -1
      | some lc => (lc.1 : ℤ)
    m_presentation :=
      (List.range numFuncs).filterMap
        (fun j => (decision j).map (fun lc => (j, lc.2))) }

/-- A rebuild decision is valid when every stored presentation level is
positive (the presentation of a truncated function is strictly finer than
level 0, per the header comment m_is_truncated(j) = k > 0). -/
def validDecision (decision : ℕ → Option (ℕ × (ℕ → ℚ))) : Prop :=
  ∀ j lc, decision j = some lc → 1 ≤ lc.1

/-! ### The fast (level-caching) evaluators

The per-point per-level caches tmpResults/tmpDeriv/tmpActive of the source
store pure results of the collaborator calls, so in the embedding a cache hit
and a recomputation give the same value; the cache bookkeeping (the processed
vector) is therefore not represented.  Out-of-range matrix reads that are
undefined behaviour in the source (a flat index missing from the active list,
an empty active list) are modelled by a zero default. -/

/-- Value of the native branch of the fast evaluators: locate the flat tensor
index of the function inside the active list of its presentation level and
read the matching row of the cached evaluation. -/
def THBBasis.nativeVal (B : THBBasis) (p idx : ℕ) : ℚ :=
  let lvl := B.getPresLevelOfBasisFun idx
  let flat := B.flatTensorIndexOf idx lvl
  (B.tensorEval lvl p).getD ((B.tensorActive lvl p).findIdx (· == flat)) 0

/-- Value of the truncated branch of fastEval_into: the dot product of the
stored sparse coefficients, read at the active flat indices of the
presentation level, with the cached evaluation rows. -/
def THBBasis.truncVal (B : THBBasis) (p idx : ℕ) : ℚ :=
  let lvl := B.getPresLevelOfBasisFun idx
  let active := B.tensorActive lvl p
  let basis := B.tensorEval lvl p
  ((List.range active.length).map
    (fun i => B.coefsOf idx (active.getD i 0) * basis.getD i 0)).sum

/-- One result entry of fastEval_into for global id idx at point p. -/
def THBBasis.fastEvalEntry (B : THBBasis) (p idx : ℕ) : ℚ :=
  if B.m_is_truncated idx = -1 then B.nativeVal p idx else B.truncVal p idx

/-- Native branch of fastDeriv_into: the block of d rows of the cached
derivative matrix at the located local index. -/
def THBBasis.nativeDerBlock (B : THBBasis) (p idx : ℕ) : List ℚ :=
  let lvl := B.getPresLevelOfBasisFun idx
  let flat := B.flatTensorIndexOf idx lvl
  let li := (B.tensorActive lvl p).findIdx (· == flat)
  (List.range B.d).map (fun dim => (B.tensorDeriv lvl p).getD (li * B.d + dim) 0)

/-- Truncated branch of fastDeriv_into: for each direction, the sparse linear
combination of the cached derivative rows. -/
def THBBasis.truncDerBlock (B : THBBasis) (p idx : ℕ) : List ℚ :=
  let lvl := B.getPresLevelOfBasisFun idx
  let active := B.tensorActive lvl p
  let basis := B.tensorDeriv lvl p
  (List.range B.d).map (fun dim =>
    ((List.range active.length).map
      (fun i => B.coefsOf idx (active.getD i 0) * basis.getD (i * B.d + dim) 0)).sum)

/-- One result block (d rows) of fastDeriv_into for id idx at point p. -/
def THBBasis.fastDerivEntry (B : THBBasis) (p idx : ℕ) : List ℚ :=
  if B.m_is_truncated idx = -1 then B.nativeDerBlock p idx else B.truncDerBlock p idx

/-- Number of second-derivative components, numDers = d(d+1)/2. -/
def THBBasis.numDers (B : THBBasis) : ℕ :=
  (B.d * (B.d + 1)) / 2

/-- Native branch of fastDeriv2_into. -/
def THBBasis.nativeDer2Block (B : THBBasis) (p idx : ℕ) : List ℚ :=
  let lvl := B.getPresLevelOfBasisFun idx
  let flat := B.flatTensorIndexOf idx lvl
  let li := (B.tensorActive lvl p).findIdx (· == flat)
  (List.range B.numDers).map
    (fun der => (B.tensorDeriv2 lvl p).getD (li * B.numDers + der) 0)

/-- Truncated branch of fastDeriv2_into. -/
def THBBasis.truncDer2Block (B : THBBasis) (p idx : ℕ) : List ℚ :=
  let lvl := B.getPresLevelOfBasisFun idx
  let active := B.tensorActive lvl p
  let basis := B.tensorDeriv2 lvl p
  (List.range B.numDers).map (fun der =>
    ((List.range active.length).map
      (fun i => B.coefsOf idx (active.getD i 0) * basis.getD (i * B.numDers + der) 0)).sum)

/-- One result block (numDers rows) of fastDeriv2_into for id idx at p. -/
def THBBasis.fastDeriv2Entry (B : THBBasis) (p idx : ℕ) : List ℚ :=
  if B.m_is_truncated idx = -1 then B.nativeDer2Block p idx else B.truncDer2Block p idx

/-- The shared per-column loop of the three fast evaluators: walk the padded
active-index column; on meeting the value 0 at a row other than row 0 stop,
leaving the zero initialization of the remaining result rows in place;
otherwise emit the block of the current id and continue. -/
def fastColGo (blockLen : ℕ) (entry : ℕ → List ℚ) : ℕ → List ℕ → List ℚ
  | _, [] => []
  | ind, idx :: rest =>
    if ind ≠ 0 ∧ idx = 0 then
      List.replicate ((idx :: rest).length * blockLen) 0
    else
      entry idx ++ fastColGo blockLen entry (ind + 1) rest

/-- Modelled from the spec: the active-id matrix produced by the base class
active_into pads short columns with the sentinel 0 up to the maximal per-point
active count.  Number of rows of that matrix for a batch of points. -/
def THBBasis.numActRows (B : THBBasis) (pts : List ℕ) : ℕ :=
  (pts.map (fun p => (B.hierActive p).length)).foldr max 0

/-- Modelled from the spec: one padded column of the active-id matrix. -/
def THBBasis.paddedCol (B : THBBasis) (pts : List ℕ) (p : ℕ) : List ℕ :=
  B.hierActive p ++ List.replicate (B.numActRows pts - (B.hierActive p).length) 0

/-- activeFunctions(points): the padded matrix of global ids, as columns. -/
def THBBasis.activeFunctions (B : THBBasis) (pts : List ℕ) : List (List ℕ) :=
  pts.map (fun p => B.paddedCol pts p)

/-- fastEval_into: the result matrix (one column per point) of the fast
order-0 evaluator. -/
def THBBasis.fastEval_into (B : THBBasis) (pts : List ℕ) : List (List ℚ) :=
  pts.map (fun p => fastColGo 1 (fun idx => [B.fastEvalEntry p idx]) 0 (B.paddedCol pts p))

/-- fastDeriv_into: the result matrix of the fast order-1 evaluator, d rows
per active function. -/
def THBBasis.fastDeriv_into (B : THBBasis) (pts : List ℕ) : List (List ℚ) :=
  pts.map (fun p => fastColGo B.d (B.fastDerivEntry p) 0 (B.paddedCol pts p))

/-- fastDeriv2_into: the result matrix of the fast order-2 evaluator,
d(d+1)/2 rows per active function. -/
def THBBasis.fastDeriv2_into (B : THBBasis) (pts : List ℕ) : List (List ℚ) :=
  pts.map (fun p => fastColGo B.numDers (B.fastDeriv2Entry p) 0 (B.paddedCol pts p))

/-! ### The generic evaluator path -/

/-- Modelled from the spec: the value of the single tensor basis function
with flat index flat of level lvl at point p; by compact support it is the
matching row of the active evaluation when the index is active there and 0
otherwise.  (The generic path evaluates a Native function directly at its
native level.) -/
def THBBasis.tensorFuncVal (B : THBBasis) (lvl flat p : ℕ) : ℚ :=
  if flat ∈ B.tensorActive lvl p then
    (B.tensorEval lvl p).getD ((B.tensorActive lvl p).findIdx (· == flat)) 0
  else 0

/-- Modelled from the spec: one generic order-0 entry; a Native function is
evaluated directly at its native level, a Truncated one as the dot product of
its stored sparse coefficients with the presentation-level basis values. -/
def THBBasis.genericEvalEntry (B : THBBasis) (p idx : ℕ) : ℚ :=
  if B.m_is_truncated idx = -1 then
    B.tensorFuncVal (B.levelOf idx) (B.flatTensorIndexOf idx (B.levelOf idx)) p
  else
    let lvl := (B.m_is_truncated idx).toNat
    let active := B.tensorActive lvl p
    ((List.range active.length).map
      (fun i => B.coefsOf idx (active.getD i 0) * (B.tensorEval lvl p).getD i 0)).sum

/-- Modelled from the spec: the dim-th first-derivative component of the
single tensor function with flat index flat of level lvl at point p (zero off
its compact support). -/
def THBBasis.tensorFuncDer (B : THBBasis) (lvl flat dim p : ℕ) : ℚ :=
  if flat ∈ B.tensorActive lvl p then
    (B.tensorDeriv lvl p).getD
      (((B.tensorActive lvl p).findIdx (· == flat)) * B.d + dim) 0
  else 0

/-- Modelled from the spec: the der-th second-derivative component of the
single tensor function with flat index flat of level lvl at point p. -/
def THBBasis.tensorFuncDer2 (B : THBBasis) (lvl flat der p : ℕ) : ℚ :=
  if flat ∈ B.tensorActive lvl p then
    (B.tensorDeriv2 lvl p).getD
      (((B.tensorActive lvl p).findIdx (· == flat)) * B.numDers + der) 0
  else 0

/-- Modelled from the spec: one generic order-1 block (d rows). -/
def THBBasis.genericDerivEntry (B : THBBasis) (p idx : ℕ) : List ℚ :=
  if B.m_is_truncated idx = -1 then
    let lvl := B.levelOf idx
    let flat := B.flatTensorIndexOf idx lvl
    (List.range B.d).map (fun dim => B.tensorFuncDer lvl flat dim p)
  else
    let lvl := (B.m_is_truncated idx).toNat
    let active := B.tensorActive lvl p
    (List.range B.d).map (fun dim =>
      ((List.range active.length).map
        (fun i => B.coefsOf idx (active.getD i 0) *
          (B.tensorDeriv lvl p).getD (i * B.d + dim) 0)).sum)

/-- Modelled from the spec: one generic order-2 block (d(d+1)/2 rows). -/
def THBBasis.genericDeriv2Entry (B : THBBasis) (p idx : ℕ) : List ℚ :=
  if B.m_is_truncated idx = -1 then
    let lvl := B.levelOf idx
    let flat := B.flatTensorIndexOf idx lvl
    (List.range B.numDers).map (fun der => B.tensorFuncDer2 lvl flat der p)
  else
    let lvl := (B.m_is_truncated idx).toNat
    let active := B.tensorActive lvl p
    (List.range B.numDers).map (fun der =>
      ((List.range active.length).map
        (fun i => B.coefsOf idx (active.getD i 0) *
          (B.tensorDeriv2 lvl p).getD (i * B.numDers + der) 0)).sum)

/-- Modelled from the spec: the generic order-0 evaluator eval_into (its body
lives outside the header) visits the active functions of each point in the
deterministic active order and pads the remaining rows with zeros. -/
def THBBasis.eval_into (B : THBBasis) (pts : List ℕ) : List (List ℚ) :=
  pts.map (fun p =>
    ((B.hierActive p).map (fun idx => [B.genericEvalEntry p idx])).flatten ++
      List.replicate ((B.numActRows pts - (B.hierActive p).length) * 1) 0)

/-- Modelled from the spec: the generic order-1 evaluator deriv_into. -/
def THBBasis.deriv_into (B : THBBasis) (pts : List ℕ) : List (List ℚ) :=
  pts.map (fun p =>
    ((B.hierActive p).map (B.genericDerivEntry p)).flatten ++
      List.replicate ((B.numActRows pts - (B.hierActive p).length) * B.d) 0)

/-- Modelled from the spec: the generic order-2 evaluator deriv2_into. -/
def THBBasis.deriv2_into (B : THBBasis) (pts : List ℕ) : List (List ℚ) :=
  pts.map (fun p =>
    ((B.hierActive p).map (B.genericDeriv2Entry p)).flatten ++
      List.replicate ((B.numActRows pts - (B.hierActive p).length) * B.numDers) 0)

/-! ### Level hierarchy and refinement (spec-modelled)

The refinement operation lives in the base class gsHTensorBasis outside the
header; the model follows section 4.1 of the spec.  The index domain is a 2D
cell grid; the hierarchy records the level owning each cell (every cell is
owned by exactly one level). -/

/-- An axis-aligned index-space box: lower corner and upper corner, covering
the cells of the half-open ranges. -/
structure IdxBox where
  lo : ℕ × ℕ
  hi : ℕ × ℕ
deriving DecidableEq, Repr

/-- The cells of an index box. -/
def IdxBox.cells (b : IdxBox) : List (ℕ × ℕ) :=
  (List.range' b.lo.1 (b.hi.1 - b.lo.1)).flatMap
    (fun x => (List.range' b.lo.2 (b.hi.2 - b.lo.2)).map (fun y => (x, y)))

/-- Whether a nonempty box lies inside the domain box. -/
def IdxBox.inside (b dom : IdxBox) : Bool :=
  b.lo.1 < b.hi.1 && b.lo.2 < b.hi.2 &&
  dom.lo.1 ≤ b.lo.1 && dom.lo.2 ≤ b.lo.2 &&
  b.hi.1 ≤ dom.hi.1 && b.hi.2 ≤ dom.hi.2

/-- Modelled from the spec: the level hierarchy state, owning the index
domain and the level assigned to every cell. -/
structure Hierarchy where
  domain : IdxBox
  cellLevel : ℕ × ℕ → ℕ

/-- Modelled from the spec: the coarsest currently-active level overlapping a
box (minimum of the cell levels inside the box; the fold is seeded with the
lower corner cell, which belongs to every nonempty box). -/
def Hierarchy.coarsestOverlap (H : Hierarchy) (b : IdxBox) : ℕ :=
  ((b.cells).map H.cellLevel).foldr min (H.cellLevel b.lo)

/-- Modelled from the spec: refine(box, targetLevel) marks the box active at
targetLevel; it fails with StructuralError when the box lies outside the
domain or when targetLevel is not exactly one level finer than the coarsest
currently-active level overlapping the box.  On success the cells of the box
are raised to targetLevel. -/
def Hierarchy.refine (H : Hierarchy) (b : IdxBox) (target : ℕ) :
    Except GsError Hierarchy :=
  if ¬ b.inside H.domain then
    Except.error GsError.StructuralError
  else if target ≠ H.coarsestOverlap b + 1 then
    Except.error GsError.StructuralError
  else
    Except.ok { H with cellLevel := fun cell =>
      if cell ∈ b.cells then max target (H.cellLevel cell) else H.cellLevel cell }

/-- Modelled from the spec: apply-or-reject semantics of a single refine
call; a failed request leaves the hierarchy unchanged. -/
def Hierarchy.refineApply (H : Hierarchy) (b : IdxBox) (target : ℕ) : Hierarchy :=
  match H.refine b target with
  | Except.error _ => H
  | Except.ok H2 => H2

/-! ### Polyline cycle splitting (spec-modelled)

breakCycles, identifyCycle and breakPolylineIntoTwoParts are implemented
outside the header; the model follows section 4.4 of the spec.  A closed
polyline is the list of its vertices in traversal order; segment i joins
vertex i to vertex i+1, and the last vertex joins back to vertex 0. -/

/-- Default vertex used for positional reads of a polyline. -/
def d0 : ℚ × ℚ :=
  (0, 0)

/-- The closed segment sequence of a vertex cycle: segment t joins vertex t
to vertex t+1, the last vertex joining back to vertex 0. -/
def segmentsOf (vs : List (ℚ × ℚ)) : List ((ℚ × ℚ) × (ℚ × ℚ)) :=
  (List.range vs.length).map
    (fun t => (vs.getD t d0, vs.getD ((t + 1) % vs.length) d0))

/-- Position of the first occurrence of a vertex in a vertex list. -/
def idxOfPt (w : ℚ × ℚ) : List (ℚ × ℚ) → ℕ
  | [] => 0
  | a :: rest => if a = w then 0 else idxOfPt w rest + 1

/-- Modelled from the spec: traversal that looks for the first vertex
encountered twice; returns the position of its first occurrence and the
position of the revisit. -/
def identifyCycleGo (seen : List (ℚ × ℚ)) (j : ℕ) :
    List (ℚ × ℚ) → Option (ℕ × ℕ)
  | [] => none
  | v :: rest =>
    if v ∈ seen then some (idxOfPt v seen, j)
    else identifyCycleGo (seen ++ [v]) (j + 1) rest

/-- Modelled from the spec: identifyCycle reports where the traced polyline
revisits a previously visited vertex, if anywhere. -/
def identifyCycle (vs : List (ℚ × ℚ)) : Option (ℕ × ℕ) :=
  identifyCycleGo [] 0 vs

/-- Modelled from the spec: breakPolylineIntoTwoParts splits the cycle at the
repeated vertex (first occurrence i, revisit j) into the inner loop (vertices
i..j-1) and the outer remainder (vertices 0..i-1 and j..end). -/
def breakPolylineIntoTwoParts (vs : List (ℚ × ℚ)) (i j : ℕ) :
    List (ℚ × ℚ) × List (ℚ × ℚ) :=
  ((vs.drop i).take (j - i), vs.take i ++ vs.drop j)

/-! ### The truncation engine and partition of unity (spec-modelled)

representBasis and the per-function truncation recursion live outside the
header; the model follows section 4.2 of the spec.  Levels 0..L each carry a
tensor basis (values are collaborator data); refinement between consecutive
levels is the exact knot-insertion transform R; the support predicate
covered l i m states that the support of function i of level l is contained
in the refined region of level m. -/

/-- Modelled from the spec: the multi-level spline system consumed by the
truncation engine.  Points are opaque codes. -/
structure HBSystem where
  /-- finest level -/
  L : ℕ
  /-- number of tensor functions per level -/
  n : ℕ → ℕ
  /-- value of tensor function j of level l at a point -/
  bval : ℕ → ℕ → ℕ → ℚ
  /-- exact knot-insertion transform: function i of level l equals the
  combination over j of R l i j times function j of level l+1 -/
  R : ℕ → ℕ → ℕ → ℚ
  /-- support containment: the support of function i of level l lies inside
  the refined region of level m -/
  covered : ℕ → ℕ → ℕ → Bool

/-- Modelled from the spec: the hierarchical selection; function i of level l
is active when its support lies inside the region of level l but not inside
the next finer region. -/
def HBSystem.act (S : HBSystem) (l i : ℕ) : Bool :=
  S.covered l i l && ! S.covered l i (l + 1)

/-- Modelled from the spec: exact knot insertion of a coefficient vector from
level l to level l+1. -/
def HBSystem.refineVec (S : HBSystem) (l : ℕ) (c : ℕ → ℚ) : ℕ → ℚ :=
  fun j => ∑ i in Finset.range (S.n l), c i * S.R l i j

/-- Modelled from the spec: truncation at level l zeros every coefficient
whose level-l function is covered by the refined region of level l. -/
def HBSystem.truncVec (S : HBSystem) (l : ℕ) (c : ℕ → ℚ) : ℕ → ℚ :=
  fun j => if S.covered l j l then 0 else c j

/-- Modelled from the spec: push a coefficient vector from level l through
steps successive refine-then-truncate stages. -/
def HBSystem.pushTo (S : HBSystem) : ℕ → ℕ → (ℕ → ℚ) → (ℕ → ℚ)
  | _, 0, c => c
  | l, steps + 1, c => S.pushTo (l + 1) steps (S.truncVec (l + 1) (S.refineVec l c))

/-- The coefficient vector, at the finest level, of the truncated basis
function with native level l and native index i (unit vector pushed through
all refine-truncate stages; stages past the presentation level are exact and
truncate nothing, so values are unchanged). -/
def HBSystem.thbCoefs (S : HBSystem) (l i : ℕ) : ℕ → ℚ :=
  S.pushTo l (S.L - l) (fun j => if j = i then 1 else 0)

/-- Value of the truncated basis function with native level l and index i at
point x, read off its finest-level representation. -/
def HBSystem.thbVal (S : HBSystem) (l i x : ℕ) : ℚ :=
  ∑ j in Finset.range (S.n S.L), S.thbCoefs l i j * S.bval S.L j x

/-- The sum of the values of all active truncated basis functions at x. -/
def HBSystem.totalSum (S : HBSystem) (x : ℕ) : ℚ :=
  ∑ l in Finset.range (S.L + 1), ∑ i in Finset.range (S.n l),
    if S.act l i then S.thbVal l i x else 0

/-- Accumulated coefficient vector of the active functions of levels up to l,
expressed at level l. -/
def HBSystem.accum (S : HBSystem) : ℕ → (ℕ → ℚ)
  | 0 => fun i => if S.act 0 i then 1 else 0
  | l + 1 => fun j => (if S.act (l + 1) j then 1 else 0) +
      S.truncVec (l + 1) (S.refineVec l (S.accum l)) j

/-- Indicator coefficient vector of the active selection of one level. -/
def HBSystem.indAct (S : HBSystem) (l : ℕ) : ℕ → ℚ :=
  fun i => if S.act l i then 1 else 0

/-- Evaluation of a finest-level coefficient vector at a point. -/
def HBSystem.evalL (S : HBSystem) (c : ℕ → ℚ) (x : ℕ) : ℚ :=
  ∑ j in Finset.range (S.n S.L), c j * S.bval S.L j x

/-! ### Concrete sample data for witnesses -/

/-- A small fully native basis state: one-dimensional, three tensor functions
per level, two active hierarchical functions at every point. -/
def sampleB0 : THBBasis where
  d := 1
  levelSize := fun _ => 3
  m_is_truncated := fun _ => -1
  m_presentation := []
  levelOf := fun _ => 0
  flatTensorIndexOf := fun idx _ => idx
  tensorEval := fun _ _ => [1/4, 1/2, 1/4]
  tensorDeriv := fun _ _ => [-1, 0, 1]
  tensorDeriv2 := fun _ _ => [2, -4, 2]
  tensorActive := fun _ _ => [0, 1, 2]
  hierActive := fun _ => [0, 1]

/-- A sample rebuild decision: function 1 becomes truncated with presentation
level 1, every other function stays native. -/
def sampleDec : ℕ → Option (ℕ × (ℕ → ℚ)) :=
  fun j => if j = 1 then some (1, fun k => if k ≤ 2 then 1/2 else 0) else none

/-- The sample basis after the modelled rebuild. -/
def sampleB : THBBasis :=
  representBasis sampleB0 2 sampleDec

/-- A basis state whose second point has more active functions than the
first, so that the first column of the active matrix is padded. -/
def sampleB2 : THBBasis :=
  { sampleB0 with hierActive := fun p => if p = 8 then [3, 4] else [3] }

/-- A sample hierarchy: a 4 by 4 index domain entirely at level 0. -/
def sampleH : Hierarchy where
  domain := ⟨(0, 0), (4, 4)⟩
  cellLevel := fun _ => 0

/-- A sample box inside the sample domain. -/
def sampleBox : IdxBox :=
  ⟨(0, 0), (2, 2)⟩

/-- A sample polyline with one self-tangency: the vertex (0, 0) is visited
twice before the cycle closes. -/
def samplePoly : List (ℚ × ℚ) :=
  [(0, 0), (1, 0), (0, 0), (0, 1)]

/-- A sample two-level system: one coarse function refined into two finer
ones, the coarse region not refined anywhere. -/
def sampleS : HBSystem where
  L := 1
  n := fun l => if l = 0 then 1 else 2
  bval := fun l j _ => if l = 0 then 1 else if j = 0 then 1/3 else 2/3
  R := fun _ _ _ => 1
  covered := fun l i m => l = 0 && i = 0 && m = 0

/-- A sample two-level system with actual truncation: the support of the
coarse function overlaps the refined region but one finer function escapes
it. -/
def sampleS2 : HBSystem where
  L := 1
  n := fun l => if l = 0 then 1 else 2
  bval := fun l j _ => if l = 0 then 1 else if j = 0 then 1/3 else 2/3
  R := fun _ _ _ => 1
  covered := fun l i m =>
    (l = 0 && i = 0 && m = 0) || (l = 1 && i = 1 && (m = 0 || m = 1))

/-! ### Helper lemmas -/

theorem lookup_representBasis (decision : ℕ → Option (ℕ × (ℕ → ℚ))) :
    ∀ (l : List ℕ), l.Nodup → ∀ j : ℕ,
      (l.filterMap (fun a => (decision a).map (fun lc => (a, lc.2)))).lookup j
        = if j ∈ l then (decision j).map (fun lc => lc.2) else none := by
  intro l
  induction l with
  | nil => intro _ j; simp
  | cons a t ih =>
    intro hnd j
    have ha : a ∉ t := (List.nodup_cons.mp hnd).1
    have ht : t.Nodup := (List.nodup_cons.mp hnd).2
    by_cases hja : j = a
    · subst hja
      cases hda : decision j with
      | none =>
        have : j ∉ t := ha
        simp [List.filterMap_cons, hda, ih ht j, this]
      | some lc =>
        simp [List.filterMap_cons, hda, List.lookup]
    · cases hda : decision a with
      | none =>
        simp [List.filterMap_cons, hda, ih ht j, hja]
      | some lc =>
        have : (j == a) = false := by simp [hja]
        simp [List.filterMap_cons, hda, List.lookup, this, ih ht j, hja]

theorem length_filterMap_eq {α β : Type} (f : α → Option β) (l : List α) :
    (l.filterMap f).length = (l.filter (fun a => (f a).isSome)).length := by
  induction l with
  | nil => rfl
  | cons a t ih =>
    cases hfa : f a with
    | none => simp [List.filterMap_cons, List.filter_cons, hfa, ih]
    | some b => simp [List.filterMap_cons, List.filter_cons, hfa, ih]

/-! ### Claim theorems -/

/-- C8: after a rebuild of the truncation cache, a function is reported
truncated exactly when the presentation cache stores a coefficient entry for
it, and numTruncated() equals the number of truncated ids. -/
theorem thb_truncation_cache_sync (B0 : THBBasis) (numFuncs : ℕ)
    (decision : ℕ → Option (ℕ × (ℕ → ℚ))) (j : ℕ) (hj : j < numFuncs) :
    ((representBasis B0 numFuncs decision).isTruncated j = true ↔
      ((representBasis B0 numFuncs decision).m_presentation.lookup j).isSome = true) ∧
    (representBasis B0 numFuncs decision).numTruncated =
      ((List.range numFuncs).filter
        (fun i => (representBasis B0 numFuncs decision).isTruncated i)).length := by
  constructor
  · rw [show (representBasis B0 numFuncs decision).m_presentation
        = (List.range numFuncs).filterMap
            (fun a => (decision a).map (fun lc => (a, lc.2))) from rfl,
      lookup_representBasis decision (List.range numFuncs) (List.nodup_range numFuncs) j]
    have hmem : j ∈ List.range numFuncs := List.mem_range.mpr hj
    rw [if_pos hmem]
    cases hd : decision j with
    | none => simp [THBBasis.isTruncated, representBasis, hd]
    | some lc =>
      have hne : ((lc.1 : ℤ)) ≠ -1 := by omega
      simp [THBBasis.isTruncated, representBasis, hd, hne]
  · rw [show (representBasis B0 numFuncs decision).numTruncated
        = ((List.range numFuncs).filterMap
            (fun a => (decision a).map (fun lc => (a, lc.2)))).length from rfl,
      length_filterMap_eq]
    congr 1
    apply List.filter_congr
    intro a _
    cases hd : decision a with
    | none => simp [THBBasis.isTruncated, representBasis, hd]
    | some lc =>
      have hne : ((lc.1 : ℤ)) ≠ -1 := by omega
      simp [THBBasis.isTruncated, representBasis, hd, hne]

/-- C8 witness: the rebuilt sample basis satisfies the cache synchronization
at id 1 and the truncated count agrees with the per-id reports. -/
theorem thb_truncation_cache_sync_witness :
    (sampleB.isTruncated 1 = true ↔
      (sampleB.m_presentation.lookup 1).isSome = true) ∧
    sampleB.numTruncated =
      ((List.range 2).filter (fun i => sampleB.isTruncated i)).length :=
  thb_truncation_cache_sync sampleB0 2 sampleDec 1 (by decide)

/-- C4: getCoefs(id) fails with AccessError exactly when isTruncated(id) is
false; on a truncated id it returns the stored sparse vector without error. -/
theorem thb_getCoefs_access (B0 : THBBasis) (numFuncs : ℕ)
    (decision : ℕ → Option (ℕ × (ℕ → ℚ))) (i : ℕ) (hi : i < numFuncs) :
    ((representBasis B0 numFuncs decision).getCoefs i =
        Except.error GsError.AccessError ↔
      (representBasis B0 numFuncs decision).isTruncated i = false) ∧
    ((representBasis B0 numFuncs decision).isTruncated i = true →
      ∃ c, (representBasis B0 numFuncs decision).m_presentation.lookup i = some c ∧
        (representBasis B0 numFuncs decision).getCoefs i = Except.ok c) := by
  have hlook := lookup_representBasis decision (List.range numFuncs)
    (List.nodup_range numFuncs) i
  have hmem : i ∈ List.range numFuncs := List.mem_range.mpr hi
  rw [if_pos hmem] at hlook
  cases hd : decision i with
  | none =>
    constructor
    · simp [THBBasis.getCoefs, THBBasis.isTruncated, representBasis, hd]
    · intro htr
      exfalso
      simp [THBBasis.isTruncated, representBasis, hd] at htr
  | some lc =>
    have hne : ((lc.1 : ℤ)) ≠ -1 := by omega
    constructor
    · simp [THBBasis.getCoefs, THBBasis.isTruncated, representBasis, hd, hne]
    · intro _
      refine ⟨lc.2, ?_, ?_⟩
      · rw [show (representBasis B0 numFuncs decision).m_presentation
            = (List.range numFuncs).filterMap
                (fun a => (decision a).map (fun lc => (a, lc.2))) from rfl,
          hlook, hd]
        rfl
      · have hcoefs : (representBasis B0 numFuncs decision).coefsOf i = lc.2 := by
          rw [show (representBasis B0 numFuncs decision).coefsOf i
              = (((representBasis B0 numFuncs decision).m_presentation.lookup i).getD
                  (fun _ => 0)) from rfl,
            show (representBasis B0 numFuncs decision).m_presentation
              = (List.range numFuncs).filterMap
                  (fun a => (decision a).map (fun lc => (a, lc.2))) from rfl,
            hlook, hd]
          rfl
        have hflag : (representBasis B0 numFuncs decision).m_is_truncated i
            = (lc.1 : ℤ) := by
          simp [representBasis, hd]
        rw [show (representBasis B0 numFuncs decision).getCoefs i
            = (if (representBasis B0 numFuncs decision).m_is_truncated i = -1 then
                Except.error GsError.AccessError
              else
                Except.ok ((representBasis B0 numFuncs decision).coefsOf i)) from rfl,
          hflag, if_neg hne, hcoefs]

/-- C4 witness: in the rebuilt sample basis, id 0 is not truncated and its
coefficient query fails with AccessError. -/
theorem thb_getCoefs_access_witness :
    sampleB.getCoefs 0 = Except.error GsError.AccessError :=
  (thb_getCoefs_access sampleB0 2 sampleDec 0 (by decide)).1.mpr (by decide)

/-- C9: the presentation level equals the native level for a non-truncated
function and the stored flag for a truncated one; a truncated flag is never
0, so the presentation level of a truncated function is at least 1. -/
theorem thb_presentation_level (B0 : THBBasis) (numFuncs : ℕ)
    (decision : ℕ → Option (ℕ × (ℕ → ℚ))) (hv : validDecision decision) (j : ℕ) :
    ((representBasis B0 numFuncs decision).isTruncated j = false →
      (representBasis B0 numFuncs decision).getPresLevelOfBasisFun j =
        (representBasis B0 numFuncs decision).levelOf j) ∧
    ((representBasis B0 numFuncs decision).isTruncated j = true →
      (representBasis B0 numFuncs decision).m_is_truncated j ≠ 0 ∧
      (representBasis B0 numFuncs decision).m_is_truncated j =
        (((representBasis B0 numFuncs decision).getPresLevelOfBasisFun j : ℕ) : ℤ) ∧
      1 ≤ (representBasis B0 numFuncs decision).getPresLevelOfBasisFun j) := by
  cases hd : decision j with
  | none =>
    constructor
    · intro _
      simp [THBBasis.getPresLevelOfBasisFun, representBasis, hd]
    · intro htr
      exfalso
      simp [THBBasis.isTruncated, representBasis, hd] at htr
  | some lc =>
    have hv1 : 1 ≤ lc.1 := hv j lc hd
    have hne : ((lc.1 : ℤ)) ≠ -1 := by omega
    constructor
    · intro htr
      exfalso
      simp [THBBasis.isTruncated, representBasis, hd, hne] at htr
    · intro _
      have hflag : (representBasis B0 numFuncs decision).m_is_truncated j
          = (lc.1 : ℤ) := by
        simp [representBasis, hd]
      have hpres : (representBasis B0 numFuncs decision).getPresLevelOfBasisFun j
          = lc.1 := by
        rw [show (representBasis B0 numFuncs decision).getPresLevelOfBasisFun j
            = (if (representBasis B0 numFuncs decision).m_is_truncated j = -1 then
                (representBasis B0 numFuncs decision).levelOf j
              else
                ((representBasis B0 numFuncs decision).m_is_truncated j).toNat)
            from rfl,
          hflag, if_neg hne]
        exact Int.toNat_natCast lc.1
      refine ⟨?_, ?_, ?_⟩
      · rw [hflag]; omega
      · rw [hflag, hpres]
      · rw [hpres]; exact hv1

/-- C9 witness: the truncated sample function 1 has presentation level 1. -/
theorem thb_presentation_level_witness :
    1 ≤ sampleB.getPresLevelOfBasisFun 1 :=
  ((thb_presentation_level sampleB0 2 sampleDec (by
      intro j lc h
      by_cases hj : j = 1
      · subst hj
        have h2 : some ((1 : ℕ), fun k => if k ≤ 2 then (1 : ℚ)/2 else 0)
            = some lc := by
          rw [← h]; rfl
        rw [← Option.some.inj h2]
      · simp [sampleDec, hj] at h) 1).2 (by decide)).2.2

/-- C7: the evaluators are deterministic; two calls on the same basis state
with equal point sets return identical active-id and value matrices. -/
theorem thb_eval_deterministic (B : THBBasis) (pts1 pts2 : List ℕ)
    (h : pts1 = pts2) :
    B.activeFunctions pts1 = B.activeFunctions pts2 ∧
    B.fastEval_into pts1 = B.fastEval_into pts2 ∧
    B.fastDeriv_into pts1 = B.fastDeriv_into pts2 ∧
    B.fastDeriv2_into pts1 = B.fastDeriv2_into pts2 := by
  subst h
  exact ⟨rfl, rfl, rfl, rfl⟩

/-- C7 witness: determinism at the sample basis and a concrete point set. -/
theorem thb_eval_deterministic_witness :
    sampleB0.activeFunctions [5] = sampleB0.activeFunctions [5] ∧
    sampleB0.fastEval_into [5] = sampleB0.fastEval_into [5] ∧
    sampleB0.fastDeriv_into [5] = sampleB0.fastDeriv_into [5] ∧
    sampleB0.fastDeriv2_into [5] = sampleB0.fastDeriv2_into [5] :=
  thb_eval_deterministic sampleB0 [5] [5] rfl

theorem getD_replicate_zero (n r : ℕ) :
    (List.replicate n (0 : ℚ)).getD r 0 = 0 := by
  induction n generalizing r with
  | zero => simp
  | succ n ih =>
    cases r with
    | zero => simp [List.replicate_succ]
    | succ r =>
      rw [List.replicate_succ, List.getD_cons_succ]
      exact ih r

theorem getD_map_of_lt {α β : Type} (f : α → β) (l : List α) (k : ℕ)
    (hk : k < l.length) (d : α) (d2 : β) :
    (l.map f).getD k d2 = f (l.getD k d) := by
  have h2 : k < (l.map f).length := by simpa using hk
  rw [List.getD_eq_getElem _ _ h2, List.getD_eq_getElem _ _ hk, List.getElem_map]

theorem fastColGo_entry_at (B : THBBasis) (p : ℕ) :
    ∀ (col : List ℕ) (ind r : ℕ), r < col.length →
      (∀ t, t ≤ r → ind + t ≠ 0 → col.getD t 0 ≠ 0) →
      (fastColGo 1 (fun idx => [B.fastEvalEntry p idx]) ind col).getD r 0
        = B.fastEvalEntry p (col.getD r 0) := by
  intro col
  induction col with
  | nil =>
    intro ind r hr _
    simp at hr
  | cons idx rest ih =>
    intro ind r hr hnz
    have hcond : ¬ (ind ≠ 0 ∧ idx = 0) := by
      rintro ⟨hind, hidx⟩
      exact hnz 0 (Nat.zero_le r) (by simpa using hind) (by simpa using hidx)
    simp only [fastColGo, if_neg hcond]
    cases r with
    | zero => simp
    | succ r =>
      rw [show ([B.fastEvalEntry p idx] ++
          fastColGo 1 (fun i => [B.fastEvalEntry p i]) (ind + 1) rest)
          = B.fastEvalEntry p idx ::
            fastColGo 1 (fun i => [B.fastEvalEntry p i]) (ind + 1) rest from rfl,
        List.getD_cons_succ, List.getD_cons_succ]
      apply ih (ind + 1) r (by simpa using hr)
      intro t ht hind
      have := hnz (t + 1) (by omega) (by omega)
      simpa using this

theorem fastColGo_zero_after (B : THBBasis) (p : ℕ) :
    ∀ (col : List ℕ) (ind r : ℕ),
      (∃ t, t ≤ r ∧ ind + t ≠ 0 ∧ col.getD t 0 = 0 ∧ t < col.length) →
      (fastColGo 1 (fun idx => [B.fastEvalEntry p idx]) ind col).getD r 0 = 0 := by
  intro col
  induction col with
  | nil =>
    rintro ind r ⟨t, _, _, _, hlt⟩
    simp at hlt
  | cons idx rest ih =>
    rintro ind r ⟨t, htr, hind, hz, hlt⟩
    by_cases hcond : ind ≠ 0 ∧ idx = 0
    · simp only [fastColGo, if_pos hcond]
      exact getD_replicate_zero _ _
    · have ht0 : t ≠ 0 := by
        intro h0
        subst h0
        exact hcond ⟨by simpa using hind, by simpa using hz⟩
      obtain ⟨t, rfl⟩ : ∃ t2, t = t2 + 1 := ⟨t - 1, by omega⟩
      obtain ⟨r, rfl⟩ : ∃ r2, r = r2 + 1 := ⟨r - 1, by omega⟩
      simp only [fastColGo, if_neg hcond]
      rw [show ([B.fastEvalEntry p idx] ++
          fastColGo 1 (fun i => [B.fastEvalEntry p i]) (ind + 1) rest)
          = B.fastEvalEntry p idx ::
            fastColGo 1 (fun i => [B.fastEvalEntry p i]) (ind + 1) rest from rfl,
        List.getD_cons_succ]
      exact ih (ind + 1) r ⟨t, by omega, by omega, by simpa using hz,
        by simpa using hlt⟩

/-- C10: in each output column of the fast order-0 evaluator, entries are the
computed values for the positions of the active-index column before the first
0 occurring at a row other than row 0 (0 being both the padding sentinel and
a global id valid only in row 0), and every entry from that position on is
exactly zero, as left by the zero initialization of the result. -/
theorem thb_fastEval_break_structure (B : THBBasis) (pts : List ℕ) (k : ℕ)
    (hk : k < pts.length) (r : ℕ) :
    ((∀ t, t ≤ r → 1 ≤ t → (B.paddedCol pts (pts.getD k 0)).getD t 0 ≠ 0) →
      r < (B.paddedCol pts (pts.getD k 0)).length →
      ((B.fastEval_into pts).getD k []).getD r 0
        = B.fastEvalEntry (pts.getD k 0) ((B.paddedCol pts (pts.getD k 0)).getD r 0)) ∧
    ((∃ t, t ≤ r ∧ 1 ≤ t ∧ (B.paddedCol pts (pts.getD k 0)).getD t 0 = 0 ∧
        t < (B.paddedCol pts (pts.getD k 0)).length) →
      ((B.fastEval_into pts).getD k []).getD r 0 = 0) := by
  have hcol : (B.fastEval_into pts).getD k []
      = fastColGo 1 (fun idx => [B.fastEvalEntry (pts.getD k 0) idx]) 0
          (B.paddedCol pts (pts.getD k 0)) := by
    rw [show B.fastEval_into pts
        = pts.map (fun p =>
            fastColGo 1 (fun idx => [B.fastEvalEntry p idx]) 0 (B.paddedCol pts p))
        from rfl]
    exact getD_map_of_lt _ pts k hk 0 []
  constructor
  · intro hnz hr
    rw [hcol]
    apply fastColGo_entry_at B (pts.getD k 0) _ 0 r hr
    intro t ht hind
    exact hnz t ht (by omega)
  · rintro ⟨t, h1, h2, h3, h4⟩
    rw [hcol]
    exact fastColGo_zero_after B (pts.getD k 0) _ 0 r ⟨t, h1, by omega, h3, h4⟩

/-- C10 witness: in the sample basis whose first point has a padded column,
the output entry at the padded row is exactly zero. -/
theorem thb_fastEval_break_structure_witness :
    ((sampleB2.fastEval_into [7, 8]).getD 0 []).getD 1 0 = 0 :=
  (thb_fastEval_break_structure sampleB2 [7, 8] 0 (by decide) 1).2
    ⟨1, le_refl 1, le_refl 1, by decide, by decide⟩

theorem map_range_getD_eq :
    ∀ (l : List ℕ), l.Nodup → ∀ (F : ℕ → ℕ → ℚ),
      (List.range l.length).map (fun i => F (l.getD i 0) i)
        = l.map (fun a => F a (l.findIdx (· == a))) := by
  intro l
  induction l with
  | nil =>
    intro _ F
    simp
  | cons a t ih =>
    intro hnd F
    have ha : a ∉ t := (List.nodup_cons.mp hnd).1
    have ht : t.Nodup := (List.nodup_cons.mp hnd).2
    have hfind : (a :: t).findIdx (· == a) = 0 := by
      simp [List.findIdx_cons]
    have step1 : (List.range (a :: t).length).map (fun i => F ((a :: t).getD i 0) i)
        = F a 0 :: (List.range t.length).map (fun i => F (t.getD i 0) (i + 1)) := by
      rw [List.length_cons, List.range_succ_eq_map, List.map_cons, List.map_map]
      congr 1
    have step2 : (a :: t).map (fun b => F b ((a :: t).findIdx (· == b)))
        = F a 0 :: t.map (fun b => F b (t.findIdx (· == b) + 1)) := by
      rw [List.map_cons, hfind]
      congr 1
      apply List.map_congr_left
      intro b hb
      have hne : (a == b) = false := by
        simp only [beq_eq_false_iff_ne]
        exact fun h => ha (h ▸ hb)
      rw [List.findIdx_cons, hne]
      rfl
    rw [step1, step2]
    congr 1
    exact ih ht (fun b i => F b (i + 1))

theorem sum_range_active (c g : ℕ → ℚ) (N : ℕ) (l : List ℕ)
    (hnd : l.Nodup) (hlt : ∀ a ∈ l, a < N) :
    ((List.range l.length).map (fun i => c (l.getD i 0) * g i)).sum
      = ∑ k in Finset.range N,
          c k * (if k ∈ l then g (l.findIdx (· == k)) else 0) := by
  rw [map_range_getD_eq l hnd (fun a i => c a * g i)]
  have h1 : ∑ k in Finset.range N,
      c k * (if k ∈ l then g (l.findIdx (· == k)) else 0)
      = ∑ k in Finset.range N,
          (if k ∈ l then c k * g (l.findIdx (· == k)) else 0) := by
    apply Finset.sum_congr rfl
    intro k _
    by_cases hk : k ∈ l <;> simp [hk]
  have hfs : (Finset.range N).filter (fun k => k ∈ l) = l.toFinset := by
    ext x
    constructor
    · intro hx
      exact List.mem_toFinset.mpr (Finset.mem_filter.mp hx).2
    · intro hx
      have hxl : x ∈ l := List.mem_toFinset.mp hx
      exact Finset.mem_filter.mpr ⟨Finset.mem_range.mpr (hlt x hxl), hxl⟩
  rw [h1, ← Finset.sum_filter, hfs, List.sum_toFinset _ hnd]

theorem getD_range_map (f : ℕ → ℚ) (n i : ℕ) (hi : i < n) :
    ((List.range n).map f).getD i 0 = f i := by
  rw [getD_map_of_lt f (List.range n) i (by simpa using hi) 0 0]
  congr 1
  rw [List.getD_eq_getElem _ _ (by simpa using hi), List.getElem_range]

/-- C2: for a truncated function id, the fast evaluator value is the dot
product of getCoefs(id) with the presentation-level tensor basis values at
the point, and each first-derivative component is the same linear combination
of the presentation-level derivative values. -/
theorem thb_truncation_exactness (B : THBBasis) (p idx : ℕ)
    (htr : B.isTruncated idx = true)
    (hnd : (B.tensorActive (B.getPresLevelOfBasisFun idx) p).Nodup)
    (hlt : ∀ a ∈ B.tensorActive (B.getPresLevelOfBasisFun idx) p,
      a < B.levelSize (B.getPresLevelOfBasisFun idx)) :
    B.getCoefs idx = Except.ok (B.coefsOf idx) ∧
    B.fastEvalEntry p idx
      = ∑ k in Finset.range (B.levelSize (B.getPresLevelOfBasisFun idx)),
          B.coefsOf idx k * B.tensorFuncVal (B.getPresLevelOfBasisFun idx) k p ∧
    ∀ dim, dim < B.d →
      (B.fastDerivEntry p idx).getD dim 0
        = ∑ k in Finset.range (B.levelSize (B.getPresLevelOfBasisFun idx)),
            B.coefsOf idx k *
              B.tensorFuncDer (B.getPresLevelOfBasisFun idx) k dim p := by
  have hflag : ¬ B.m_is_truncated idx = -1 := by
    simpa [THBBasis.isTruncated, bne_iff_ne] using htr
  refine ⟨?_, ?_, ?_⟩
  · simp only [THBBasis.getCoefs, if_neg hflag]
  · simp only [THBBasis.fastEvalEntry, if_neg hflag, THBBasis.truncVal]
    rw [sum_range_active (B.coefsOf idx)
      (fun i => (B.tensorEval (B.getPresLevelOfBasisFun idx) p).getD i 0)
      (B.levelSize (B.getPresLevelOfBasisFun idx)) _ hnd hlt]
    apply Finset.sum_congr rfl
    intro k _
    rfl
  · intro dim hdim
    simp only [THBBasis.fastDerivEntry, if_neg hflag, THBBasis.truncDerBlock]
    rw [getD_range_map _ B.d dim hdim]
    rw [sum_range_active (B.coefsOf idx)
      (fun i => (B.tensorDeriv (B.getPresLevelOfBasisFun idx) p).getD
        (i * B.d + dim) 0)
      (B.levelSize (B.getPresLevelOfBasisFun idx)) _ hnd hlt]
    apply Finset.sum_congr rfl
    intro k _
    rfl

/-- C2 witness: truncation exactness at the sample truncated function 1. -/
theorem thb_truncation_exactness_witness :
    sampleB.fastEvalEntry 5 1
      = ∑ k in Finset.range (sampleB.levelSize (sampleB.getPresLevelOfBasisFun 1)),
          sampleB.coefsOf 1 k *
            sampleB.tensorFuncVal (sampleB.getPresLevelOfBasisFun 1) k 5 :=
  (thb_truncation_exactness sampleB 5 1 (by decide) (by decide) (by decide)).2.1

theorem fastColGo_tail (blockLen : ℕ) (entry : ℕ → List ℚ) :
    ∀ (l : List ℕ) (ind k : ℕ), (0 : ℕ) ∉ l →
      fastColGo blockLen entry (ind + 1) (l ++ List.replicate k 0)
        = (l.map entry).flatten ++ List.replicate (k * blockLen) 0 := by
  intro l
  induction l with
  | nil =>
    intro ind k _
    cases k with
    | zero => simp [fastColGo]
    | succ k =>
      rw [List.nil_append, List.replicate_succ]
      simp only [fastColGo]
      rw [if_pos (by exact ⟨Nat.succ_ne_zero ind, by simp⟩)]
      simp [List.length_replicate]
  | cons x t ih =>
    intro ind k h0
    have hx : x ≠ 0 := fun h => h0 (by simp [h])
    have hx2 : (0 : ℕ) ∉ t := fun h => h0 (List.mem_cons_of_mem _ h)
    rw [List.cons_append]
    simp only [fastColGo]
    rw [if_neg (by rintro ⟨_, h⟩; exact hx h)]
    rw [ih (ind + 1) k hx2]
    simp [List.append_assoc]

theorem fastColGo_full (blockLen : ℕ) (entry : ℕ → List ℚ)
    (real : List ℕ) (k : ℕ) (hne : real ≠ []) (h0 : (0 : ℕ) ∉ real.drop 1) :
    fastColGo blockLen entry 0 (real ++ List.replicate k 0)
      = (real.map entry).flatten ++ List.replicate (k * blockLen) 0 := by
  obtain ⟨a, t, rfl⟩ : ∃ a t, real = a :: t := by
    cases real with
    | nil => exact absurd rfl hne
    | cons a t => exact ⟨a, t, rfl⟩
  rw [List.cons_append]
  simp only [fastColGo]
  rw [if_neg (by rintro ⟨h, _⟩; exact h rfl)]
  have h0t : (0 : ℕ) ∉ t := by simpa using h0
  rw [fastColGo_tail blockLen entry t 0 k h0t]
  simp [List.append_assoc]

theorem fastEvalEntry_eq_generic (B : THBBasis) (p idx : ℕ)
    (hf : B.m_is_truncated idx = -1 →
      B.flatTensorIndexOf idx (B.levelOf idx) ∈ B.tensorActive (B.levelOf idx) p) :
    B.fastEvalEntry p idx = B.genericEvalEntry p idx := by
  by_cases h : B.m_is_truncated idx = -1
  · have hpres : B.getPresLevelOfBasisFun idx = B.levelOf idx := by
      simp [THBBasis.getPresLevelOfBasisFun, h]
    simp only [THBBasis.fastEvalEntry, THBBasis.genericEvalEntry, if_pos h,
      THBBasis.nativeVal, THBBasis.tensorFuncVal, hpres, if_pos (hf h)]
  · have hpres : B.getPresLevelOfBasisFun idx = (B.m_is_truncated idx).toNat := by
      simp [THBBasis.getPresLevelOfBasisFun, h]
    simp only [THBBasis.fastEvalEntry, THBBasis.genericEvalEntry, if_neg h,
      THBBasis.truncVal, hpres]

theorem fastDerivEntry_eq_generic (B : THBBasis) (p idx : ℕ)
    (hf : B.m_is_truncated idx = -1 →
      B.flatTensorIndexOf idx (B.levelOf idx) ∈ B.tensorActive (B.levelOf idx) p) :
    B.fastDerivEntry p idx = B.genericDerivEntry p idx := by
  by_cases h : B.m_is_truncated idx = -1
  · have hpres : B.getPresLevelOfBasisFun idx = B.levelOf idx := by
      simp [THBBasis.getPresLevelOfBasisFun, h]
    simp only [THBBasis.fastDerivEntry, THBBasis.genericDerivEntry, if_pos h,
      THBBasis.nativeDerBlock, THBBasis.tensorFuncDer, hpres, if_pos (hf h)]
  · have hpres : B.getPresLevelOfBasisFun idx = (B.m_is_truncated idx).toNat := by
      simp [THBBasis.getPresLevelOfBasisFun, h]
    simp only [THBBasis.fastDerivEntry, THBBasis.genericDerivEntry, if_neg h,
      THBBasis.truncDerBlock, hpres]

theorem fastDeriv2Entry_eq_generic (B : THBBasis) (p idx : ℕ)
    (hf : B.m_is_truncated idx = -1 →
      B.flatTensorIndexOf idx (B.levelOf idx) ∈ B.tensorActive (B.levelOf idx) p) :
    B.fastDeriv2Entry p idx = B.genericDeriv2Entry p idx := by
  by_cases h : B.m_is_truncated idx = -1
  · have hpres : B.getPresLevelOfBasisFun idx = B.levelOf idx := by
      simp [THBBasis.getPresLevelOfBasisFun, h]
    simp only [THBBasis.fastDeriv2Entry, THBBasis.genericDeriv2Entry, if_pos h,
      THBBasis.nativeDer2Block, THBBasis.tensorFuncDer2, hpres, if_pos (hf h)]
  · have hpres : B.getPresLevelOfBasisFun idx = (B.m_is_truncated idx).toNat := by
      simp [THBBasis.getPresLevelOfBasisFun, h]
    simp only [THBBasis.fastDeriv2Entry, THBBasis.genericDeriv2Entry, if_neg h,
      THBBasis.truncDer2Block, hpres]

/-- C3: for every point set, the fast (level-caching) evaluators of orders
0, 1 and 2 produce the same result matrices as the generic evaluator path
(same dimensions, same values in the same positions), assuming each point has
at least one active function, the sentinel 0 occurs only in row 0 of the
active matrix, and every native flat index is active at its own level. -/
theorem thb_fast_generic_equal (B : THBBasis) (pts : List ℕ)
    (hne : ∀ p ∈ pts, B.hierActive p ≠ [])
    (h0 : ∀ p ∈ pts, (0 : ℕ) ∉ (B.hierActive p).drop 1)
    (hf : ∀ p ∈ pts, ∀ idx ∈ B.hierActive p, B.m_is_truncated idx = -1 →
      B.flatTensorIndexOf idx (B.levelOf idx) ∈ B.tensorActive (B.levelOf idx) p) :
    B.fastEval_into pts = B.eval_into pts ∧
    B.fastDeriv_into pts = B.deriv_into pts ∧
    B.fastDeriv2_into pts = B.deriv2_into pts := by
  refine ⟨?_, ?_, ?_⟩
  · simp only [THBBasis.fastEval_into, THBBasis.eval_into]
    apply List.map_congr_left
    intro p hp
    rw [show B.paddedCol pts p = B.hierActive p ++
        List.replicate (B.numActRows pts - (B.hierActive p).length) 0 from rfl,
      fastColGo_full 1 _ (B.hierActive p) _ (hne p hp) (h0 p hp)]
    congr 2
    apply List.map_congr_left
    intro idx hidx
    rw [fastEvalEntry_eq_generic B p idx (hf p hp idx hidx)]
  · simp only [THBBasis.fastDeriv_into, THBBasis.deriv_into]
    apply List.map_congr_left
    intro p hp
    rw [show B.paddedCol pts p = B.hierActive p ++
        List.replicate (B.numActRows pts - (B.hierActive p).length) 0 from rfl,
      fastColGo_full B.d _ (B.hierActive p) _ (hne p hp) (h0 p hp)]
    congr 2
    apply List.map_congr_left
    intro idx hidx
    rw [fastDerivEntry_eq_generic B p idx (hf p hp idx hidx)]
  · simp only [THBBasis.fastDeriv2_into, THBBasis.deriv2_into]
    apply List.map_congr_left
    intro p hp
    rw [show B.paddedCol pts p = B.hierActive p ++
        List.replicate (B.numActRows pts - (B.hierActive p).length) 0 from rfl,
      fastColGo_full B.numDers _ (B.hierActive p) _ (hne p hp) (h0 p hp)]
    congr 2
    apply List.map_congr_left
    intro idx hidx
    rw [fastDeriv2Entry_eq_generic B p idx (hf p hp idx hidx)]

/-- C3 witness: fast and generic evaluators agree on the sample basis at a
concrete point set, for all three derivative orders. -/
theorem thb_fast_generic_equal_witness :
    sampleB0.fastEval_into [5] = sampleB0.eval_into [5] ∧
    sampleB0.fastDeriv_into [5] = sampleB0.deriv_into [5] ∧
    sampleB0.fastDeriv2_into [5] = sampleB0.deriv2_into [5] :=
  thb_fast_generic_equal sampleB0 [5] (by decide) (by decide) (by decide)

/-- C5: refine(box, targetLevel) fails with StructuralError exactly when the
box lies outside the domain or the target level is not one finer than the
coarsest active level overlapping the box; a failed call leaves the hierarchy
unchanged (apply-or-reject semantics). -/
theorem hierarchy_refine_reject (H : Hierarchy) (b : IdxBox) (target : ℕ) :
    (H.refine b target = Except.error GsError.StructuralError ↔
      (b.inside H.domain = false ∨ target ≠ H.coarsestOverlap b + 1)) ∧
    (H.refine b target = Except.error GsError.StructuralError →
      H.refineApply b target = H) := by
  by_cases hin : b.inside H.domain
  · by_cases htar : target = H.coarsestOverlap b + 1
    · have hok : H.refine b target = Except.ok
          { H with cellLevel := fun cell =>
              if cell ∈ b.cells then max target (H.cellLevel cell)
              else H.cellLevel cell } := by
        simp [Hierarchy.refine, hin, htar]
      constructor
      · constructor
        · intro herr
          rw [hok] at herr
          exact absurd herr (by simp)
        · rintro (h | h)
          · rw [h] at hin
            exact absurd hin (by simp)
          · exact absurd htar h
      · intro herr
        rw [hok] at herr
        exact absurd herr (by simp)
    · have herr : H.refine b target = Except.error GsError.StructuralError := by
        simp [Hierarchy.refine, hin, htar]
      constructor
      · exact ⟨fun _ => Or.inr htar, fun _ => herr⟩
      · intro _
        simp [Hierarchy.refineApply, herr]
  · have herr : H.refine b target = Except.error GsError.StructuralError := by
      simp [Hierarchy.refine, hin]
    constructor
    · exact ⟨fun _ => Or.inl (by simpa using hin), fun _ => herr⟩
    · intro _
      simp [Hierarchy.refineApply, herr]

/-- C5 witness: a refinement request two levels deeper than the coarsest
active level is rejected and leaves the sample hierarchy unchanged. -/
theorem hierarchy_refine_reject_witness :
    sampleH.refineApply sampleBox 3 = sampleH :=
  (hierarchy_refine_reject sampleH sampleBox 3).2
    ((hierarchy_refine_reject sampleH sampleBox 3).1.mpr (Or.inr (by decide)))

theorem refineVec_sum (S : HBSystem) (l : ℕ) {ι : Type} (t : Finset ι)
    (f : ι → ℕ → ℚ) :
    S.refineVec l (fun u => ∑ m in t, f m u)
      = fun j => ∑ m in t, S.refineVec l (f m) j := by
  funext j
  simp only [HBSystem.refineVec, Finset.sum_mul]
  exact Finset.sum_comm

theorem truncVec_sum (S : HBSystem) (l : ℕ) {ι : Type} (t : Finset ι)
    (f : ι → ℕ → ℚ) :
    S.truncVec l (fun u => ∑ m in t, f m u)
      = fun j => ∑ m in t, S.truncVec l (f m) j := by
  funext j
  simp only [HBSystem.truncVec]
  by_cases h : S.covered l j l = true
  · simp [h]
  · simp [h]

theorem pushTo_sum (S : HBSystem) :
    ∀ (steps l : ℕ) {ι : Type} (t : Finset ι) (f : ι → ℕ → ℚ),
      S.pushTo l steps (fun u => ∑ m in t, f m u)
        = fun j => ∑ m in t, S.pushTo l steps (f m) j := by
  intro steps
  induction steps with
  | zero =>
    intro l ι t f
    rfl
  | succ s ih =>
    intro l ι t f
    show S.pushTo (l + 1) s
        (S.truncVec (l + 1) (S.refineVec l (fun u => ∑ m in t, f m u))) = _
    rw [refineVec_sum S l t f,
      truncVec_sum S (l + 1) t (fun m => S.refineVec l (f m))]
    exact ih (l + 1) t (fun m => S.truncVec (l + 1) (S.refineVec l (f m)))

theorem pushTo_zero (S : HBSystem) :
    ∀ (steps l : ℕ), S.pushTo l steps (fun _ => 0) = fun _ => 0 := by
  intro steps
  induction steps with
  | zero =>
    intro l
    rfl
  | succ s ih =>
    intro l
    show S.pushTo (l + 1) s
        (S.truncVec (l + 1) (S.refineVec l (fun _ => 0))) = _
    have h1 : S.refineVec l (fun _ => (0 : ℚ)) = fun _ => 0 := by
      funext j
      simp [HBSystem.refineVec]
    have h2 : S.truncVec (l + 1) (fun _ => (0 : ℚ)) = fun _ => 0 := by
      funext j
      simp [HBSystem.truncVec]
    rw [h1, h2]
    exact ih (l + 1)

theorem pushTo_succ_end (S : HBSystem) :
    ∀ (k l : ℕ) (c : ℕ → ℚ),
      S.pushTo l (k + 1) c
        = S.truncVec (l + k + 1) (S.refineVec (l + k) (S.pushTo l k c)) := by
  intro k
  induction k with
  | zero =>
    intro l c
    rfl
  | succ k ih =>
    intro l c
    show S.pushTo (l + 1) (k + 1) (S.truncVec (l + 1) (S.refineVec l c)) = _
    rw [ih (l + 1) (S.truncVec (l + 1) (S.refineVec l c))]
    have h1 : l + 1 + k + 1 = l + (k + 1) + 1 := by omega
    have h2 : l + 1 + k = l + (k + 1) := by omega
    rw [h1, h2]
    rfl

theorem pushTo_congr (S : HBSystem) :
    ∀ (steps l : ℕ) (c₁ c₂ : ℕ → ℚ), (∀ u, u < S.n l → c₁ u = c₂ u) →
      ∀ j, j < S.n (l + steps) →
        S.pushTo l steps c₁ j = S.pushTo l steps c₂ j := by
  intro steps
  induction steps with
  | zero =>
    intro l c₁ c₂ h j hj
    exact h j hj
  | succ s _ =>
    intro l c₁ c₂ h j _
    show S.pushTo (l + 1) s (S.truncVec (l + 1) (S.refineVec l c₁)) j = _
    have hr : S.refineVec l c₁ = S.refineVec l c₂ := by
      funext u
      simp only [HBSystem.refineVec]
      apply Finset.sum_congr rfl
      intro i hi
      rw [h i (Finset.mem_range.mp hi)]
    rw [hr]
    rfl

theorem accum_eq_pushes (S : HBSystem) :
    ∀ l : ℕ, S.accum l
      = fun j => ∑ m in Finset.range (l + 1),
          S.pushTo m (l - m) (S.indAct m) j := by
  intro l
  induction l with
  | zero =>
    funext j
    show (if S.act 0 j then (1 : ℚ) else 0) = _
    rw [Finset.sum_range_one]
    rfl
  | succ l ih =>
    funext j
    show (if S.act (l + 1) j then (1 : ℚ) else 0)
        + S.truncVec (l + 1) (S.refineVec l (S.accum l)) j = _
    rw [ih,
      refineVec_sum S l (Finset.range (l + 1))
        (fun m => S.pushTo m (l - m) (S.indAct m)),
      truncVec_sum S (l + 1) (Finset.range (l + 1))
        (fun m => S.refineVec l (S.pushTo m (l - m) (S.indAct m))),
      Finset.sum_range_succ]
    have h3 : ∀ m ∈ Finset.range (l + 1),
        S.pushTo m (l + 1 - m) (S.indAct m) j
          = S.truncVec (l + 1)
              (S.refineVec l (S.pushTo m (l - m) (S.indAct m))) j := by
      intro m hm
      have hm2 : m ≤ l := Nat.lt_succ_iff.mp (Finset.mem_range.mp hm)
      have he : l + 1 - m = (l - m) + 1 := by omega
      rw [he, pushTo_succ_end S (l - m) m (S.indAct m)]
      have h4 : m + (l - m) = l := by omega
      rw [h4]
    rw [Finset.sum_congr rfl h3]
    have h5 : S.pushTo (l + 1) (l + 1 - (l + 1)) (S.indAct (l + 1)) j
        = (if S.act (l + 1) j then (1 : ℚ) else 0) := by
      have h6 : l + 1 - (l + 1) = 0 := by omega
      rw [h6]
      rfl
    rw [h5]
    exact add_comm _ _

theorem accum_ones (S : HBSystem)
    (hcols : ∀ l, l < S.L → ∀ j, j < S.n (l + 1) →
      ∑ i in Finset.range (S.n l), S.R l i j = 1)
    (hnest : ∀ l, l < S.L → ∀ i, i < S.n l → ∀ j, j < S.n (l + 1) →
      S.R l i j ≠ 0 → S.covered l i (l + 1) = true →
        S.covered (l + 1) j (l + 1) = true)
    (hcov0 : ∀ i, i < S.n 0 → S.covered 0 i 0 = true) :
    ∀ l, l ≤ S.L → ∀ j, j < S.n l → S.covered l j (l + 1) = false →
      S.accum l j = 1 := by
  intro l
  induction l with
  | zero =>
    intro _ j hj hc
    have hact : S.act 0 j = true := by
      simp [HBSystem.act, hcov0 j hj, hc]
    show (if S.act 0 j then (1 : ℚ) else 0) = 1
    simp [hact]
  | succ l ih =>
    intro hl j hj hc
    have hlL : l < S.L := by omega
    show (if S.act (l + 1) j then (1 : ℚ) else 0)
        + S.truncVec (l + 1) (S.refineVec l (S.accum l)) j = 1
    by_cases hcov : S.covered (l + 1) j (l + 1) = true
    · have hact : S.act (l + 1) j = true := by
        simp [HBSystem.act, hcov, hc]
      have htr : S.truncVec (l + 1) (S.refineVec l (S.accum l)) j = 0 := by
        simp [HBSystem.truncVec, hcov]
      rw [htr]
      simp [hact]
    · have hcovF : S.covered (l + 1) j (l + 1) = false := by
        cases h2 : S.covered (l + 1) j (l + 1) with
        | false => rfl
        | true => exact absurd h2 hcov
      have hact : S.act (l + 1) j = false := by
        simp [HBSystem.act, hcovF]
      have hite : (if S.act (l + 1) j then (1 : ℚ) else 0) = 0 := by
        simp [hact]
      have htr : S.truncVec (l + 1) (S.refineVec l (S.accum l)) j
          = S.refineVec l (S.accum l) j := by
        simp [HBSystem.truncVec, hcovF]
      rw [hite, htr, zero_add]
      show (∑ i in Finset.range (S.n l), S.accum l i * S.R l i j) = 1
      have hterm : ∀ i ∈ Finset.range (S.n l),
          S.accum l i * S.R l i j = 1 * S.R l i j := by
        intro i hi
        by_cases hR : S.R l i j = 0
        · rw [hR, mul_zero, mul_zero]
        · have hci : S.covered l i (l + 1) = false := by
            cases h2 : S.covered l i (l + 1) with
            | false => rfl
            | true =>
              have h3 := hnest l hlL i (Finset.mem_range.mp hi) j hj hR h2
              rw [hcovF] at h3
              exact absurd h3 (by simp)
          rw [ih (by omega) i (Finset.mem_range.mp hi) hci]
      rw [Finset.sum_congr rfl hterm]
      simp only [one_mul]
      exact hcols l hlL j hj

/-- C1: partition of unity of the truncated hierarchical basis.  For any
point and any refinement configuration (any coverage data satisfying the
collaborator facts of the spec: exact knot insertion with unit column sums,
nested supports, whole domain at level 0, empty refined region beyond the
finest level, tensor partition of unity at the finest level), the sum of the
values of all active truncated basis functions equals exactly 1; over the
rationals this is the order-0 evaluator sum being 1 within any tolerance. -/
theorem thb_partition_of_unity (S : HBSystem) (x : ℕ)
    (hcols : ∀ l, l < S.L → ∀ j, j < S.n (l + 1) →
      ∑ i in Finset.range (S.n l), S.R l i j = 1)
    (hnest : ∀ l, l < S.L → ∀ i, i < S.n l → ∀ j, j < S.n (l + 1) →
      S.R l i j ≠ 0 → S.covered l i (l + 1) = true →
        S.covered (l + 1) j (l + 1) = true)
    (hcov0 : ∀ i, i < S.n 0 → S.covered 0 i 0 = true)
    (hcovL : ∀ i, i < S.n S.L → S.covered S.L i (S.L + 1) = false)
    (hpu : ∑ j in Finset.range (S.n S.L), S.bval S.L j x = 1) :
    S.totalSum x = 1 := by
  have stepA : S.totalSum x
      = ∑ l in Finset.range (S.L + 1), ∑ j in Finset.range (S.n S.L),
          (∑ i in Finset.range (S.n l),
            (if S.act l i then S.thbCoefs l i j else 0)) * S.bval S.L j x := by
    simp only [HBSystem.totalSum, HBSystem.thbVal]
    apply Finset.sum_congr rfl
    intro l _
    have h1 : ∀ i ∈ Finset.range (S.n l),
        (if S.act l i then
          ∑ j in Finset.range (S.n S.L), S.thbCoefs l i j * S.bval S.L j x
        else 0)
          = ∑ j in Finset.range (S.n S.L),
              (if S.act l i then S.thbCoefs l i j else 0) * S.bval S.L j x := by
      intro i _
      by_cases h : S.act l i
      · simp [h]
      · simp [h]
    rw [Finset.sum_congr rfl h1, Finset.sum_comm]
    apply Finset.sum_congr rfl
    intro j _
    rw [Finset.sum_mul]
  have stepB : ∀ j, j < S.n S.L →
      (∑ l in Finset.range (S.L + 1), ∑ i in Finset.range (S.n l),
        (if S.act l i then S.thbCoefs l i j else 0)) = S.accum S.L j := by
    intro j hj
    rw [accum_eq_pushes S S.L]
    apply Finset.sum_congr rfl
    intro l hl
    have hlL : l ≤ S.L := Nat.lt_succ_iff.mp (Finset.mem_range.mp hl)
    have h1 : ∀ i ∈ Finset.range (S.n l),
        (if S.act l i then S.thbCoefs l i j else 0)
          = S.pushTo l (S.L - l)
              (fun u => if S.act l i then (if u = i then (1 : ℚ) else 0) else 0)
              j := by
      intro i _
      by_cases h : S.act l i
      · simp only [if_pos h]
        rfl
      · simp only [if_neg h]
        rw [pushTo_zero S (S.L - l) l]
    rw [Finset.sum_congr rfl h1]
    have step1 : ∑ i in Finset.range (S.n l),
        S.pushTo l (S.L - l)
          (fun u => if S.act l i then (if u = i then (1 : ℚ) else 0) else 0) j
        = S.pushTo l (S.L - l)
            (fun u => ∑ i in Finset.range (S.n l),
              (if S.act l i then (if u = i then (1 : ℚ) else 0) else 0)) j :=
      (congrFun (pushTo_sum S (S.L - l) l (Finset.range (S.n l))
        (fun i u => if S.act l i then (if u = i then (1 : ℚ) else 0) else 0))
        j).symm
    rw [step1]
    have hrestrict : ∀ u, u < S.n l →
        (∑ i in Finset.range (S.n l),
          (if S.act l i then (if u = i then (1 : ℚ) else 0) else 0))
          = S.indAct l u := by
      intro u hu
      have h2 : ∀ i ∈ Finset.range (S.n l),
          (if S.act l i then (if u = i then (1 : ℚ) else 0) else 0)
            = (if u = i then (if S.act l u then (1 : ℚ) else 0) else 0) := by
        intro i _
        by_cases h4 : u = i
        · subst h4
          by_cases h5 : S.act l u
          · simp [h5]
          · simp [h5]
        · by_cases h5 : S.act l i
          · simp [h4, h5]
          · simp [h4, h5]
      rw [Finset.sum_congr rfl h2,
        Finset.sum_ite_eq (Finset.range (S.n l)) u
          (fun _ => if S.act l u then (1 : ℚ) else 0),
        if_pos (Finset.mem_range.mpr hu)]
      rfl
    have hcong := pushTo_congr S (S.L - l) l _ _ hrestrict j (by
      have h9 : l + (S.L - l) = S.L := by omega
      rw [h9]
      exact hj)
    rw [hcong]
  rw [stepA, Finset.sum_comm]
  have hfinal : ∀ j ∈ Finset.range (S.n S.L),
      (∑ l in Finset.range (S.L + 1),
        (∑ i in Finset.range (S.n l),
          (if S.act l i then S.thbCoefs l i j else 0)) * S.bval S.L j x)
        = S.bval S.L j x := by
    intro j hjm
    have hj := Finset.mem_range.mp hjm
    rw [← Finset.sum_mul, stepB j hj,
      accum_ones S hcols hnest hcov0 S.L (le_refl S.L) j hj (hcovL j hj),
      one_mul]
  rw [Finset.sum_congr rfl hfinal]
  exact hpu

/-- C1 witness: the sample two-level system with one truncated coarse
function satisfies the partition of unity at a concrete point. -/
theorem thb_partition_of_unity_witness : sampleS2.totalSum 0 = 1 :=
  thb_partition_of_unity sampleS2 0
    (by
      intro l hl j hj
      have hL : l = 0 := by
        rw [show sampleS2.L = 1 from rfl] at hl
        omega
      subst hL
      rw [show sampleS2.n 0 = 1 from rfl, Finset.sum_range_one]
      rfl)
    (by
      intro l hl i hi j hj hR hcov
      have hL : l = 0 := by
        rw [show sampleS2.L = 1 from rfl] at hl
        omega
      subst hL
      have hi0 : i = 0 := by
        rw [show sampleS2.n 0 = 1 from rfl] at hi
        omega
      subst hi0
      exact absurd hcov (by decide))
    (by decide)
    (by decide)
    (by
      rw [show sampleS2.n sampleS2.L = 2 from rfl, Finset.sum_range_succ,
        Finset.sum_range_one]
      norm_num [sampleS2])

theorem getD_append_self {α : Type} (l m : List α) (v : α) (d : α) :
    (l ++ v :: m).getD l.length d = v := by
  induction l with
  | nil => rfl
  | cons a t ih =>
    rw [List.cons_append, List.length_cons, List.getD_cons_succ]
    exact ih

theorem take_length_append {α : Type} (l m : List α) :
    (l ++ m).take l.length = l := by
  induction l with
  | nil => rfl
  | cons a t ih =>
    rw [List.cons_append, List.length_cons, List.take_succ_cons, ih]

theorem getD_take_of_lt {α : Type} (d : α) :
    ∀ (l : List α) (k t : ℕ), t < k → (l.take k).getD t d = l.getD t d := by
  intro l
  induction l with
  | nil =>
    intro k t _
    simp
  | cons a rest ih =>
    intro k t ht
    obtain ⟨k, rfl⟩ : ∃ k2, k = k2 + 1 := ⟨k - 1, by omega⟩
    rw [List.take_succ_cons]
    cases t with
    | zero => rfl
    | succ t =>
      rw [List.getD_cons_succ, List.getD_cons_succ]
      exact ih k t (by omega)

theorem getD_drop_add {α : Type} (d : α) :
    ∀ (k : ℕ) (l : List α) (t : ℕ), (l.drop k).getD t d = l.getD (k + t) d := by
  intro k
  induction k with
  | zero =>
    intro l t
    simp
  | succ k ih =>
    intro l t
    cases l with
    | nil => simp
    | cons a rest =>
      rw [List.drop_succ_cons, ih rest t,
        show k + 1 + t = (k + t) + 1 from by omega, List.getD_cons_succ]

theorem getD_append_cases {α : Type} (d : α) :
    ∀ (l m : List α) (t : ℕ),
      (l ++ m).getD t d
        = if t < l.length then l.getD t d else m.getD (t - l.length) d := by
  intro l
  induction l with
  | nil =>
    intro m t
    simp
  | cons a rest ih =>
    intro m t
    cases t with
    | zero => simp
    | succ t =>
      rw [List.cons_append, List.getD_cons_succ, ih m t, List.length_cons]
      by_cases h : t < rest.length
      · rw [if_pos h, if_pos (by omega), List.getD_cons_succ]
      · rw [if_neg h, if_neg (by omega)]
        congr 1
        omega

theorem idxOfPt_lt_length (w : ℚ × ℚ) :
    ∀ l : List (ℚ × ℚ), w ∈ l → idxOfPt w l < l.length := by
  intro l
  induction l with
  | nil =>
    intro hw
    simp at hw
  | cons a rest ih =>
    intro hw
    by_cases h : a = w
    · simp [idxOfPt, h]
    · have hw2 : w ∈ rest := by
        cases List.mem_cons.mp hw with
        | inl h2 => exact absurd h2.symm h
        | inr h2 => exact h2
      rw [show idxOfPt w (a :: rest) = idxOfPt w rest + 1 from by
        simp [idxOfPt, h]]
      rw [List.length_cons]
      exact Nat.succ_lt_succ (ih hw2)

theorem getD_idxOfPt_mem (w : ℚ × ℚ) :
    ∀ l : List (ℚ × ℚ), w ∈ l → l.getD (idxOfPt w l) d0 = w := by
  intro l
  induction l with
  | nil =>
    intro hw
    simp at hw
  | cons a rest ih =>
    intro hw
    by_cases h : a = w
    · simp [idxOfPt, h]
    · have hw2 : w ∈ rest := by
        cases List.mem_cons.mp hw with
        | inl h2 => exact absurd h2.symm h
        | inr h2 => exact h2
      rw [show idxOfPt w (a :: rest) = idxOfPt w rest + 1 from by
        simp [idxOfPt, h], List.getD_cons_succ]
      exact ih hw2

theorem nodup_of_getD {α : Type} (d : α) (l : List α)
    (h : ∀ a b, a < b → b < l.length → l.getD a d ≠ l.getD b d) : l.Nodup := by
  rw [List.nodup_iff_injective_get]
  intro x y hxy
  by_contra hne
  have hgx : l.getD x.1 d = l.get x := by
    rw [List.getD_eq_getElem _ _ x.2]
    rfl
  have hgy : l.getD y.1 d = l.get y := by
    rw [List.getD_eq_getElem _ _ y.2]
    rfl
  rcases Nat.lt_or_ge x.1 y.1 with h1 | h1
  · exact h x.1 y.1 h1 y.2 (by rw [hgx, hgy, hxy])
  · rcases Nat.lt_or_ge y.1 x.1 with h2 | h2
    · exact h y.1 x.1 h2 x.2 (by rw [hgx, hgy, hxy])
    · exact hne (Fin.ext (by omega))

theorem identifyCycleGo_spec :
    ∀ (rest seen : List (ℚ × ℚ)) (i j0 : ℕ),
      identifyCycleGo seen seen.length rest = some (i, j0) →
      seen.length ≤ j0 ∧ i < j0 ∧ j0 < (seen ++ rest).length ∧
      (seen ++ rest).getD j0 d0 ∈ (seen ++ rest).take j0 ∧
      i = idxOfPt ((seen ++ rest).getD j0 d0) ((seen ++ rest).take j0) ∧
      (∀ t, seen.length ≤ t → t < j0 →
        (seen ++ rest).getD t d0 ∉ (seen ++ rest).take t) := by
  intro rest
  induction rest with
  | nil =>
    intro seen i j0 h
    simp [identifyCycleGo] at h
  | cons v rest ih =>
    intro seen i j0 h
    rw [show identifyCycleGo seen seen.length (v :: rest)
        = (if v ∈ seen then some (idxOfPt v seen, seen.length)
           else identifyCycleGo (seen ++ [v]) (seen.length + 1) rest)
        from rfl] at h
    by_cases hv : v ∈ seen
    · rw [if_pos hv] at h
      have h2 := Option.some.inj h
      have hi : i = idxOfPt v seen := (congrArg Prod.fst h2).symm
      have hj : j0 = seen.length := (congrArg Prod.snd h2).symm
      subst hi
      subst hj
      have hget : (seen ++ v :: rest).getD seen.length d0 = v :=
        getD_append_self seen rest v d0
      have htake : (seen ++ v :: rest).take seen.length = seen :=
        take_length_append seen (v :: rest)
      refine ⟨le_refl _, ?_, ?_, ?_, ?_, ?_⟩
      · exact idxOfPt_lt_length v seen hv
      · rw [List.length_append, List.length_cons]
        omega
      · rw [hget, htake]
        exact hv
      · rw [hget, htake]
      · intro t h1 h2
        omega
    · rw [if_neg hv] at h
      have hlen : (seen ++ [v]).length = seen.length + 1 := by simp
      rw [← hlen] at h
      have hres := ih (seen ++ [v]) i j0 h
      rw [List.append_assoc] at hres
      rw [show ([v] ++ rest) = v :: rest from rfl] at hres
      obtain ⟨h0, h1, h2, h3, h4, h5⟩ := hres
      rw [hlen] at h0
      refine ⟨by omega, h1, h2, h3, h4, ?_⟩
      intro t ht1 ht2
      by_cases hteq : t = seen.length
      · subst hteq
        rw [getD_append_self seen rest v d0, take_length_append seen (v :: rest)]
        exact hv
      · exact h5 t (by rw [hlen]; omega) ht2

theorem getD_range_map2 {α : Type} (f : ℕ → α) (d : α) (n i : ℕ) (hi : i < n) :
    ((List.range n).map f).getD i d = f i := by
  rw [getD_map_of_lt f (List.range n) i (by simpa using hi) 0 d]
  congr 1
  rw [List.getD_eq_getElem _ _ (by simpa using hi), List.getElem_range]

theorem list_ext_getD {α : Type} (d : α) (l₁ l₂ : List α)
    (hlen : l₁.length = l₂.length)
    (h : ∀ t, t < l₁.length → l₁.getD t d = l₂.getD t d) : l₁ = l₂ := by
  apply List.ext_getElem hlen
  intro t h1 h2
  have h3 := h t h1
  rwa [List.getD_eq_getElem _ _ h1, List.getD_eq_getElem _ _ h2] at h3

theorem segmentsOf_length (l : List (ℚ × ℚ)) :
    (segmentsOf l).length = l.length := by
  simp [segmentsOf]

theorem segmentsOf_getD (l : List (ℚ × ℚ)) (t : ℕ) (ht : t < l.length) :
    (segmentsOf l).getD t (d0, d0)
      = (l.getD t d0, l.getD ((t + 1) % l.length) d0) :=
  getD_range_map2 _ (d0, d0) l.length t ht

/-- C6: when the traced polyline revisits a previously visited vertex, the
decomposition splits it at the first vertex encountered twice (position of
first occurrence i, revisit j0) into exactly two closed polylines whose
segment sequences partition the original segments: the inner loop carries
segments i..j0-1 and the remainder carries segments 0..i-1 and j0..end; when
that vertex is the only coincidence, both parts are simple (duplicate-free
vertex cycles).  Closedness is by representation: every vertex cycle denotes
a closed polyline. -/
theorem thb_break_cycles (vs : List (ℚ × ℚ)) (i j0 : ℕ)
    (hid : identifyCycle vs = some (i, j0))
    (honly : ∀ b, b < vs.length → ∀ a, a < b →
      vs.getD a d0 = vs.getD b d0 → a = i ∧ b = j0) :
    i < j0 ∧ j0 < vs.length ∧ vs.getD i d0 = vs.getD j0 d0 ∧
    (∀ t, t < j0 → vs.getD t d0 ∉ vs.take t) ∧
    segmentsOf (breakPolylineIntoTwoParts vs i j0).1
      = ((segmentsOf vs).drop i).take (j0 - i) ∧
    segmentsOf (breakPolylineIntoTwoParts vs i j0).2
      = (segmentsOf vs).take i ++ (segmentsOf vs).drop j0 ∧
    (breakPolylineIntoTwoParts vs i j0).1 ≠ [] ∧
    (breakPolylineIntoTwoParts vs i j0).2 ≠ [] ∧
    (breakPolylineIntoTwoParts vs i j0).1.Nodup ∧
    (breakPolylineIntoTwoParts vs i j0).2.Nodup := by
  have hres := identifyCycleGo_spec vs [] i j0 hid
  rw [List.nil_append] at hres
  obtain ⟨-, h1, h2, h3, h4, h5⟩ := hres
  have heq : vs.getD i d0 = vs.getD j0 d0 := by
    have e1 := getD_idxOfPt_mem (vs.getD j0 d0) (vs.take j0) h3
    rw [← h4, getD_take_of_lt d0 vs j0 i h1] at e1
    exact e1
  have len1 : ((vs.drop i).take (j0 - i)).length = j0 - i := by
    rw [List.length_take, List.length_drop]
    omega
  have getP1 : ∀ t, t < j0 - i →
      ((vs.drop i).take (j0 - i)).getD t d0 = vs.getD (i + t) d0 := by
    intro t ht
    rw [getD_take_of_lt d0 (vs.drop i) (j0 - i) t ht, getD_drop_add d0 i vs t]
  have hlen2 : (vs.take i ++ vs.drop j0).length = i + (vs.length - j0) := by
    rw [List.length_append, List.length_take, List.length_drop,
      Nat.min_eq_left (by omega)]
  have getP2 : ∀ t, (vs.take i ++ vs.drop j0).getD t d0
      = if t < i then vs.getD t d0 else vs.getD (j0 + (t - i)) d0 := by
    intro t
    rw [getD_append_cases d0 (vs.take i) (vs.drop j0) t, List.length_take,
      Nat.min_eq_left (by omega : i ≤ vs.length)]
    by_cases h : t < i
    · rw [if_pos h, if_pos h, getD_take_of_lt d0 vs i t h]
    · rw [if_neg h, if_neg h, getD_drop_add d0 j0 vs (t - i)]
  have hseg1 : segmentsOf ((vs.drop i).take (j0 - i))
      = ((segmentsOf vs).drop i).take (j0 - i) := by
    apply list_ext_getD (d0, d0)
    · rw [segmentsOf_length, len1, List.length_take, List.length_drop,
        segmentsOf_length]
      omega
    · intro t ht
      rw [segmentsOf_length, len1] at ht
      rw [segmentsOf_getD _ t (by rw [len1]; exact ht),
        getD_take_of_lt (d0, d0) ((segmentsOf vs).drop i) (j0 - i) t ht,
        getD_drop_add (d0, d0) i (segmentsOf vs) t,
        segmentsOf_getD vs (i + t) (by omega), len1]
      refine Prod.ext ?_ ?_
      · simpa using getP1 t ht
      · show ((vs.drop i).take (j0 - i)).getD ((t + 1) % (j0 - i)) d0
            = vs.getD ((i + t + 1) % vs.length) d0
        by_cases hlast : t + 1 < j0 - i
        · rw [Nat.mod_eq_of_lt hlast, getP1 (t + 1) hlast,
            Nat.mod_eq_of_lt (by omega : i + t + 1 < vs.length)]
          congr 1
        · have ht1 : t + 1 = j0 - i := by omega
          rw [ht1, Nat.mod_self, getP1 0 (by omega),
            show i + t + 1 = j0 from by omega, Nat.mod_eq_of_lt h2,
            show i + 0 = i from by omega]
          exact heq
  have hseg2 : segmentsOf (vs.take i ++ vs.drop j0)
      = (segmentsOf vs).take i ++ (segmentsOf vs).drop j0 := by
    apply list_ext_getD (d0, d0)
    · rw [segmentsOf_length, hlen2, List.length_append, List.length_take,
        List.length_drop, segmentsOf_length,
        Nat.min_eq_left (by omega : i ≤ vs.length)]
    · intro t ht
      rw [segmentsOf_length, hlen2] at ht
      rw [segmentsOf_getD _ t (by rw [hlen2]; exact ht),
        getD_append_cases (d0, d0) ((segmentsOf vs).take i)
          ((segmentsOf vs).drop j0) t,
        List.length_take, segmentsOf_length, Nat.min_eq_left (by omega),
        hlen2]
      by_cases hti : t < i
      · rw [if_pos hti,
          getD_take_of_lt (d0, d0) (segmentsOf vs) i t hti,
          segmentsOf_getD vs t (by omega)]
        refine Prod.ext ?_ ?_
        · show (vs.take i ++ vs.drop j0).getD t d0 = vs.getD t d0
          rw [getP2 t, if_pos hti]
        · show (vs.take i ++ vs.drop j0).getD ((t + 1) % (i + (vs.length - j0))) d0
              = vs.getD ((t + 1) % vs.length) d0
          have hlt : t + 1 < i + (vs.length - j0) := by omega
          rw [Nat.mod_eq_of_lt hlt, getP2 (t + 1)]
          by_cases ht1 : t + 1 < i
          · rw [if_pos ht1, Nat.mod_eq_of_lt (by omega : t + 1 < vs.length)]
          · have hti1 : t + 1 = i := by omega
            rw [if_neg ht1, Nat.mod_eq_of_lt (by omega : t + 1 < vs.length),
              hti1, show j0 + (i - i) = j0 from by omega]
            exact heq.symm
      · rw [if_neg hti,
          getD_drop_add (d0, d0) j0 (segmentsOf vs) (t - i),
          segmentsOf_getD vs (j0 + (t - i)) (by omega)]
        refine Prod.ext ?_ ?_
        · show (vs.take i ++ vs.drop j0).getD t d0 = vs.getD (j0 + (t - i)) d0
          rw [getP2 t, if_neg hti]
        · show (vs.take i ++ vs.drop j0).getD ((t + 1) % (i + (vs.length - j0))) d0
              = vs.getD ((j0 + (t - i) + 1) % vs.length) d0
          by_cases hlast : t + 1 < i + (vs.length - j0)
          · rw [Nat.mod_eq_of_lt hlast, getP2 (t + 1), if_neg (by omega),
              show j0 + (t + 1 - i) = j0 + (t - i) + 1 from by omega,
              Nat.mod_eq_of_lt (by omega : j0 + (t - i) + 1 < vs.length)]
          · have h0 : (t + 1) % (i + (vs.length - j0)) = 0 := by
              rw [show t + 1 = i + (vs.length - j0) from by omega, Nat.mod_self]
            have hj1 : j0 + (t - i) + 1 = vs.length := by omega
            rw [h0, getP2 0, hj1, Nat.mod_self]
            by_cases hi0 : 0 < i
            · rw [if_pos hi0]
            · have hieq : i = 0 := by omega
              rw [if_neg hi0, show j0 + (0 - i) = j0 from by omega]
              rw [hieq] at heq
              exact heq.symm
  have hne1 : (vs.drop i).take (j0 - i) ≠ [] := by
    intro h
    have h6 := congrArg List.length h
    rw [len1] at h6
    simp at h6
    omega
  have hne2 : vs.take i ++ vs.drop j0 ≠ [] := by
    intro h
    have h6 := congrArg List.length h
    rw [hlen2] at h6
    simp at h6
    omega
  have hnd1 : ((vs.drop i).take (j0 - i)).Nodup := by
    apply nodup_of_getD d0
    intro a b hab hb hcontra
    rw [len1] at hb
    rw [getP1 a (by omega), getP1 b hb] at hcontra
    have h7 := honly (i + b) (by omega) (i + a) (by omega) hcontra
    omega
  have hnd2 : (vs.take i ++ vs.drop j0).Nodup := by
    apply nodup_of_getD d0
    intro a b hab hb hcontra
    rw [hlen2] at hb
    rw [getP2 a, getP2 b] at hcontra
    by_cases ha : a < i
    · by_cases hbi : b < i
      · rw [if_pos ha, if_pos hbi] at hcontra
        have h7 := honly b (by omega) a hab hcontra
        omega
      · rw [if_pos ha, if_neg hbi] at hcontra
        have h7 := honly (j0 + (b - i)) (by omega) a (by omega) hcontra
        omega
    · have hbi : ¬ b < i := by omega
      rw [if_neg ha, if_neg hbi] at hcontra
      have h7 := honly (j0 + (b - i)) (by omega) (j0 + (a - i)) (by omega) hcontra
      omega
  exact ⟨h1, h2, heq, fun t ht => h5 t (Nat.zero_le t) ht,
    hseg1, hseg2, hne1, hne2, hnd1, hnd2⟩

/-- C6 witness: the sample self-tangent polyline splits at its repeated
vertex into two simple parts whose segments partition the original. -/
theorem thb_break_cycles_witness :
    segmentsOf (breakPolylineIntoTwoParts samplePoly 0 2).1
      = ((segmentsOf samplePoly).drop 0).take (2 - 0) ∧
    (breakPolylineIntoTwoParts samplePoly 0 2).2.Nodup := by
  have h := thb_break_cycles samplePoly 0 2 (by decide) (by decide)
  exact ⟨h.2.2.2.2.1, h.2.2.2.2.2.2.2.2.2⟩

end Gismo
